import Mathlib

/-!
# listApi: the sign-based FIFO ledger (store.go)

A shallow embedding of `store.go` and of the `/example` handler of `main.go`.

* Go's `[]int` is a `List Int`; slices are used as values here (every list the
  store hands out is a copy, see `snapshot`), so aliasing plays no role.
* Go's `int` is the 64-bit two's-complement integer.  Its values are the `Int`s
  from `-2 ^ 63` to `2 ^ 63 - 1`; every subtraction and multiplication of
  `Apply` is followed by `wrap64`, the reduction to that range.  The functions
  are total on `Int`, and on the 64-bit values they compute what the code
  computes.
* The magnitude `int(math.Abs(float64(v)))` goes through a 64-bit float.  The
  conversion `float64(v)` rounds to the nearest value with a 53-bit significand
  (ties to even); `float64Round` is that rounding on magnitudes, written with
  integer arithmetic only.  The conversion back, `int(f)`, is exact when `f`
  fits; for `f = 2 ^ 63` (the magnitude of every `v` with `|v| ≥ 2 ^ 63 - 512`)
  Go leaves the result to the implementation, and `floatToInt` takes the amd64
  result, `-2 ^ 63`.
* `log.Printf` calls and the mutex have no effect on the values computed and are
  left out; a call of `Apply` is a function from the store before to the
  returned pair and the store after.
-/

namespace ListApi

/-! ## Definitions -/

/-- Number of low-order bits of `m` that do not fit in a 53-bit significand:
the number of halvings that bring `m` below `2 ^ 53` (`fuel` bounds the search;
`fuel = m` is always enough). -/
def excessBits : Nat → Nat → Nat
  | 0, _ => 0
  | fuel + 1, m => if m < 2 ^ 53 then 0 else excessBits fuel (m / 2) + 1

/-- Magnitude of `float64(v)` for an integer of magnitude `m`: the nearest
integer with at most 53 significant bits, ties going to the even significand. -/
def float64Round (m : Nat) : Nat :=
  let e := excessBits m m
  let q := m / 2 ^ e
  let r := m % 2 ^ e
  if 2 * r < 2 ^ e then q * 2 ^ e
  else if 2 ^ e < 2 * r then (q + 1) * 2 ^ e
  else if q % 2 = 0 then q * 2 ^ e
  else (q + 1) * 2 ^ e

/-- Reduction of an integer to the 64-bit two's-complement range: what Go's
`int` arithmetic leaves of an exact result. -/
def wrap64 (x : Int) : Int :=
  (x + 9223372036854775808) % 18446744073709551616 - 9223372036854775808

/-- The conversion `int(f)` of a non-negative integral `float64` value `f`: the
value itself when it is below `2 ^ 63`, and `-2 ^ 63` otherwise (amd64). -/
def floatToInt (f : Nat) : Int :=
  if f < 9223372036854775808 then (f : Int) else -9223372036854775808

/-- The expression `int(math.Abs(float64(v)))` of store.go (lines 91 and 96). -/
def absInt (v : Int) : Int := floatToInt (float64Round v.natAbs)

/-- The function `sign` of store.go. -/
def sign (n : Int) : Int :=
  if n > 0 then 1
  else if n < 0 then -1
  else 0

/-- The verb `%d` of `fmt.Sprintf`: the decimal rendering of an integer. -/
def sprintfD (n : Int) : String := toString n

/-- The loop shared by `compactNonZero` and by the fallback of `Apply`:
append to `out` every element of `a` that is not zero, in order. -/
def appendNonZero (out a : List Int) : List Int :=
  a.foldl (fun acc v => if v ≠ 0 then acc ++ [v] else acc) out

/-- The function `compactNonZero` of store.go. -/
def compactNonZero (a : List Int) : List Int := appendNonZero [] a

/-- The function `snapshot` of store.go: a copy, element for element. -/
def snapshot (a : List Int) : List Int := a

/-- The type `Store` of store.go (the mutex carries no data). -/
structure Store where
  items : List Int
deriving DecidableEq

/-- What a call of `Apply` produces: the two returned values and the store
after the call. -/
structure Applied where
  action : String
  list : List Int
  store : Store
deriving DecidableEq

/-- The function `NewStore` of store.go. -/
def NewStore : Store := ⟨[]⟩

/-- The method `Reset` of store.go: `s.items = s.items[:0]`. -/
def Store.Reset (s : Store) : Store := ⟨s.items.take 0⟩

/-- The method `Snapshot` of store.go. -/
def Store.Snapshot (s : Store) : List Int := snapshot s.items

/-- The consumption loop of `Apply` (store.go lines 94-122), run on the part of
`s.items` from index `i` on, with the current `rem` and `newItems`; it returns
the final `rem` and `newItems`. -/
def consumeLoop (listSign : Int) : List Int → Int → List Int → Int × List Int
  | [], rem, newItems => (rem, newItems)
  | x :: rest, rem, newItems =>
    if rem > 0 then
      let ax := absInt x
      if rem > ax then consumeLoop listSign rest (wrap64 (rem - ax)) newItems
      else if rem = ax then consumeLoop listSign rest 0 newItems
      else
        consumeLoop listSign rest 0
          ((newItems ++ [wrap64 (wrap64 (ax - rem) * listSign)]) ++ rest)
    else (rem, newItems)

/-- Lines 84-144 of `Apply`: the ledger `items` is non-empty and `listSign` has
been derived from its first element. -/
def applySigned (items : List Int) (listSign n : Int) : Applied :=
  let nsgn := sign n
  if nsgn = listSign then
    let items1 := items ++ [n]
    ⟨"same sign, appended " ++ sprintfD n, snapshot items1, ⟨items1⟩⟩
  else
    let looped := consumeLoop listSign items (absInt n) []
    let rem := looped.1
    let newItems := looped.2
    let newItems1 :=
      if rem > 0 then newItems ++ [wrap64 (rem * nsgn)]
      else if newItems.length = 0 then appendNonZero newItems items
      else newItems
    let newItems2 := compactNonZero newItems1
    ⟨"opposite sign, applied " ++ sprintfD n, snapshot newItems2, ⟨newItems2⟩⟩

/-- The method `Apply` of store.go. -/
def Store.Apply (s : Store) (n : Int) : Applied :=
  if n = 0 then ⟨"ignored zero (no-op)", snapshot s.items, s⟩
  else
    match s.items with
    | [] =>
      let items1 := s.items ++ [n]
      ⟨"list empty, appended " ++ sprintfD n, snapshot items1, ⟨items1⟩⟩
    | first :: _ =>
      if sign first = 0 then
        let comp := compactNonZero s.items
        match comp with
        | [] =>
          let items1 := comp ++ [n]
          ⟨"list empty after compaction, appended " ++ sprintfD n, snapshot items1, ⟨items1⟩⟩
        | first1 :: _ => applySigned comp (sign first1) n
      else applySigned s.items (sign first) n

/-- The `/example` handler of main.go: reset, then apply 5, 10, -6 in order,
collecting each step, then take a snapshot.  The result is the list of
steps (input, list, action) and the `final` field. -/
def exampleHandler (s : Store) : List (Int × List Int × String) × List Int :=
  let start : Store := s.Reset
  let run := [5, 10, -6].foldl
    (fun (acc : Store × List (Int × List Int × String)) (v : Int) =>
      let r := acc.1.Apply v
      (r.store, acc.2 ++ [(v, r.list, r.action)]))
    (start, [])
  (run.2, run.1.Snapshot)

/-- The stores reachable from `NewStore()` by calls of `Apply` and `Reset`. -/
inductive Reachable : Store → Prop
  | new : Reachable NewStore
  | apply (s : Store) (n : Int) : Reachable s → Reachable (s.Apply n).store
  | reset (s : Store) : Reachable s → Reachable s.Reset

/-- The ledger invariant: every element is non-zero and all elements have one
sign (all positive or all negative). -/
def Inv (L : List Int) : Prop := (∀ x ∈ L, 0 < x) ∨ (∀ x ∈ L, x < 0)

instance (L : List Int) : Decidable (Inv L) := by
  unfold Inv; infer_instance

/-- Sum of the exact magnitudes `|x|` of the elements of a ledger. -/
def sumAbs (L : List Int) : Int := (L.map (fun x => (x.natAbs : Int))).sum

/-- The method `Snapshot` as a call on the store: the returned copy and the
store after the call (the method assigns no field). -/
def Store.SnapshotCall (s : Store) : List Int × Store := (snapshot s.items, s)

/-- A ledger with all zero elements removed, the order of the rest kept. -/
def removeZeros (L : List Int) : List Int := L.filter (fun v => decide (v ≠ 0))

/-- The sign `Apply` derives for a non-empty ledger (store.go lines 71-82): the
sign of the first element, or, when that is 0, the sign of the first element
left after compaction (0 when nothing is left). -/
def derivedSign (L : List Int) : Int :=
  match L with
  | [] => 0
  | first :: _ =>
    if sign first = 0 then
      match compactNonZero L with
      | [] => 0
      | first1 :: _ => sign first1
    else sign first

/-- The four rules of `Apply` that have an action label of their own. -/
inductive Rule where
  | noop
  | appendedToEmpty
  | appendedSameSign
  | oppositeSign
deriving DecidableEq

/-- The rule that applies to a ledger and an input, on ledgers whose first
element is not zero. -/
def ruleOf (L : List Int) (n : Int) : Rule :=
  if n = 0 then Rule.noop
  else
    match L with
    | [] => Rule.appendedToEmpty
    | first :: _ => if sign n = sign first then Rule.appendedSameSign else Rule.oppositeSign

/-- The first character of the label tells the rule apart. -/
def ruleInitial : Rule → Char
  | Rule.noop => 'i'
  | Rule.appendedToEmpty => 'l'
  | Rule.appendedSameSign => 's'
  | Rule.oppositeSign => 'o'

/-! ### `Apply` with checked index accesses

The same code with every access `s.items[i]` written as a checked access:
`none` stands for the run-time panic of an index out of range.  The loops are
the bounded `for` loops of the source; `fuel` is the number of iterations still
allowed, and a loop that would need more returns `none` too. -/

/-- The inner loop `for j := i + 1; j < len(s.items); j++` (store.go lines
118-120), started at index `j`. -/
def copyIdx (items : List Int) : Nat → Nat → List Int → Option (List Int)
  | 0, j, newItems => if j < items.length then none else some newItems
  | fuel + 1, j, newItems =>
    if j < items.length then
      match items[j]? with
      | none => none
      | some y => copyIdx items fuel (j + 1) (newItems ++ [y])
    else some newItems

/-- The fallback loop `for i := 0; i < len(s.items); i++` (store.go lines
132-137), started at index `i`. -/
def appendNonZeroIdx (items : List Int) : Nat → Nat → List Int → Option (List Int)
  | 0, i, newItems => if i < items.length then none else some newItems
  | fuel + 1, i, newItems =>
    if i < items.length then
      match items[i]? with
      | none => none
      | some x =>
        if x ≠ 0 then appendNonZeroIdx items fuel (i + 1) (newItems ++ [x])
        else appendNonZeroIdx items fuel (i + 1) newItems
    else some newItems

/-- The consumption loop `for i := 0; i < len(s.items) && rem > 0; i++`
(store.go lines 94-122), started at index `i`. -/
def consumeIdx (items : List Int) (listSign : Int) :
    Nat → Nat → Int → List Int → Option (Int × List Int)
  | 0, i, rem, newItems => if i < items.length ∧ rem > 0 then none else some (rem, newItems)
  | fuel + 1, i, rem, newItems =>
    if i < items.length ∧ rem > 0 then
      match items[i]? with
      | none => none
      | some x =>
        let ax := absInt x
        if rem > ax then consumeIdx items listSign fuel (i + 1) (wrap64 (rem - ax)) newItems
        else if rem = ax then consumeIdx items listSign fuel (i + 1) 0 newItems
        else
          match copyIdx items items.length (i + 1)
              (newItems ++ [wrap64 (wrap64 (ax - rem) * listSign)]) with
          | none => none
          | some newItems1 => consumeIdx items listSign fuel (i + 1) 0 newItems1
    else some (rem, newItems)

/-- Lines 84-144 of `Apply` with checked accesses. -/
def applySignedChecked (items : List Int) (listSign n : Int) : Option Applied :=
  let nsgn := sign n
  if nsgn = listSign then
    let items1 := items ++ [n]
    some ⟨"same sign, appended " ++ sprintfD n, snapshot items1, ⟨items1⟩⟩
  else
    match consumeIdx items listSign items.length 0 (absInt n) [] with
    | none => none
    | some (rem, newItems) =>
      let filled : Option (List Int) :=
        if rem > 0 then some (newItems ++ [wrap64 (rem * nsgn)])
        else if newItems.length = 0 then appendNonZeroIdx items items.length 0 newItems
        else some newItems
      match filled with
      | none => none
      | some newItems1 =>
        let newItems2 := compactNonZero newItems1
        some ⟨"opposite sign, applied " ++ sprintfD n, snapshot newItems2, ⟨newItems2⟩⟩

/-- The method `Apply` with checked accesses `s.items[0]`, `s.items[i]` and
`s.items[j]`. -/
def Store.ApplyChecked (s : Store) (n : Int) : Option Applied :=
  if n = 0 then some ⟨"ignored zero (no-op)", snapshot s.items, s⟩
  else if s.items.length = 0 then
    let items1 := s.items ++ [n]
    some ⟨"list empty, appended " ++ sprintfD n, snapshot items1, ⟨items1⟩⟩
  else
    match s.items[0]? with
    | none => none
    | some first =>
      if sign first = 0 then
        let comp := compactNonZero s.items
        if comp.length = 0 then
          let items1 := comp ++ [n]
          some ⟨"list empty after compaction, appended " ++ sprintfD n, snapshot items1,
            ⟨items1⟩⟩
        else
          match comp[0]? with
          | none => none
          | some first1 => applySignedChecked comp (sign first1) n
      else applySignedChecked s.items (sign first) n

/-! ## Basic facts about the helpers -/

theorem appendNonZero_eq (a out : List Int) :
    appendNonZero out a = out ++ a.filter (fun v => decide (v ≠ 0)) := by
  unfold appendNonZero
  induction a generalizing out with
  | nil => simp
  | cons v t ih =>
    simp only [List.foldl_cons]
    rw [ih]
    by_cases hv : v = 0 <;> simp [hv]

theorem compactNonZero_eq (a : List Int) :
    compactNonZero a = a.filter (fun v => decide (v ≠ 0)) := by
  simp [compactNonZero, appendNonZero_eq]

theorem compactNonZero_of_ne (a : List Int) (h : ∀ x ∈ a, x ≠ 0) :
    compactNonZero a = a := by
  rw [compactNonZero_eq, List.filter_eq_self]
  intro x hx
  simpa using h x hx

theorem mem_compactNonZero {a : List Int} {x : Int} (h : x ∈ compactNonZero a) : x ≠ 0 := by
  rw [compactNonZero_eq] at h
  simpa using (List.mem_filter.1 h).2

theorem wrap64_of_range {x : Int} (h1 : -9223372036854775808 ≤ x)
    (h2 : x < 9223372036854775808) : wrap64 x = x := by
  unfold wrap64
  omega

theorem wrap64_lt (x : Int) : wrap64 x < 9223372036854775808 := by
  unfold wrap64
  omega

theorem wrap64_mul_unit {v c : Int} (hv : 0 < v) (hv2 : v < 9223372036854775808)
    (hc : c = 1 ∨ c = -1) : wrap64 (v * c) = v * c ∧ wrap64 (wrap64 v * c) = v * c := by
  have e : wrap64 v = v := wrap64_of_range (by omega) hv2
  rw [e]
  rcases hc with rfl | rfl
  · have e1 : wrap64 (v * 1) = v * 1 := wrap64_of_range (by omega) (by omega)
    exact ⟨e1, e1⟩
  · have e1 : wrap64 (v * -1) = v * -1 := wrap64_of_range (by omega) (by omega)
    exact ⟨e1, e1⟩

/-- The computed magnitude is either a 64-bit non-negative value or, on
overflow of the conversion, `-2 ^ 63`. -/
theorem absInt_range (v : Int) :
    (0 ≤ absInt v ∧ absInt v < 9223372036854775808) ∨ absInt v = -9223372036854775808 := by
  unfold absInt floatToInt
  split_ifs with h
  · left
    exact ⟨Int.ofNat_nonneg _, by exact_mod_cast h⟩
  · right
    rfl

theorem absInt_lt (v : Int) : absInt v < 9223372036854775808 := by
  rcases absInt_range v with h | h <;> omega

theorem sgn_pos {n : Int} (h : 0 < n) : sign n = 1 := by
  simp [sign, h]

theorem sgn_neg {n : Int} (h : n < 0) : sign n = -1 := by
  have h1 : ¬ n > 0 := by omega
  simp [sign, h, h1]

theorem sgn_one_iff (n : Int) : sign n = 1 ↔ 0 < n := by
  unfold sign
  split_ifs with h1 h2
  · simp [h1]
  · simp; omega
  · simp; omega

theorem sgn_neg_one_iff (n : Int) : sign n = -1 ↔ n < 0 := by
  unfold sign
  split_ifs with h1 h2
  · simp; omega
  · simp [h2]
  · simp; omega

theorem sgn_zero_iff (n : Int) : sign n = 0 ↔ n = 0 := by
  unfold sign
  split_ifs with h1 h2
  · simp; omega
  · simp; omega
  · simp; omega

theorem sgn_cases (n : Int) (h : n ≠ 0) : sign n = 1 ∨ sign n = -1 := by
  unfold sign
  split_ifs <;> omega

theorem sgn_mul_unit {v c : Int} (hv : 0 < v) (hc : c = 1 ∨ c = -1) : sign (v * c) = c := by
  rcases hc with rfl | rfl
  · simpa using sgn_pos hv
  · have : v * -1 < 0 := by omega
    simpa using sgn_neg this

theorem inv_of_sign {L : List Int} {c : Int} (hc : c = 1 ∨ c = -1)
    (h : ∀ x ∈ L, sign x = c) : Inv L := by
  rcases hc with rfl | rfl
  · exact Or.inl (fun x hx => (sgn_one_iff x).1 (h x hx))
  · exact Or.inr (fun x hx => (sgn_neg_one_iff x).1 (h x hx))

theorem sign_of_inv {first : Int} {t : List Int} (h : Inv (first :: t)) :
    (sign first = 1 ∨ sign first = -1) ∧ ∀ x ∈ first :: t, sign x = sign first := by
  rcases h with h | h
  · have h0 := sgn_pos (h first (List.mem_cons_self _ _))
    exact ⟨Or.inl h0, fun x hx => by rw [h0]; exact sgn_pos (h x hx)⟩
  · have h0 := sgn_neg (h first (List.mem_cons_self _ _))
    exact ⟨Or.inr h0, fun x hx => by rw [h0]; exact sgn_neg (h x hx)⟩

theorem ne_zero_of_inv {L : List Int} (h : Inv L) : ∀ x ∈ L, x ≠ 0 := by
  intro x hx
  rcases h with h | h
  · have := h x hx; omega
  · have := h x hx; omega

theorem opposite_sign_facts {first n : Int} (hc : sign first = 1 ∨ sign first = -1)
    (hopp : sign n = - sign first) : n ≠ 0 ∧ first ≠ 0 ∧ sign n ≠ sign first := by
  refine ⟨?_, ?_, ?_⟩
  · intro h
    rw [(sgn_zero_iff n).2 h] at hopp
    omega
  · intro h
    rw [(sgn_zero_iff first).2 h] at hc
    omega
  · omega

/-! ## The computed magnitude -/

theorem excessBits_small (fuel m : Nat) (h : m < 2 ^ 53) : excessBits fuel m = 0 := by
  cases fuel with
  | zero => rfl
  | succ k =>
    rw [excessBits]
    exact if_pos h

theorem float64Round_exact (m : Nat) (h : m ≤ 2 ^ 53) : float64Round m = m := by
  rcases Nat.lt_or_eq_of_le h with h | h
  · unfold float64Round
    rw [excessBits_small m m h]
    simp [Nat.mod_one]
  · subst h
    decide

theorem absInt_exact (v : Int) (h : v.natAbs ≤ 2 ^ 53) : absInt v = (v.natAbs : Int) := by
  have h1 : float64Round v.natAbs < 9223372036854775808 := by
    rw [float64Round_exact _ h]
    have : (2 : Nat) ^ 53 = 9007199254740992 := by norm_num
    omega
  unfold absInt floatToInt
  rw [if_pos h1, float64Round_exact _ h]

/-- For a magnitude of at least `2 ^ 53` at least one bit is dropped and the
kept significand has its 53rd bit set. -/
theorem excessBits_large : ∀ (fuel m : Nat), m ≤ fuel → 2 ^ 53 ≤ m →
    1 ≤ excessBits fuel m ∧ 2 ^ 52 ≤ m / 2 ^ excessBits fuel m := by
  intro fuel
  induction fuel with
  | zero =>
    intro m h1 h2
    have : (0 : Nat) < 2 ^ 53 := by norm_num
    omega
  | succ k ih =>
    intro m h1 h2
    have hnot : ¬ m < 2 ^ 53 := by omega
    rw [excessBits]
    simp only [hnot, if_false]
    refine ⟨by omega, ?_⟩
    by_cases hs : m / 2 < 2 ^ 53
    · rw [excessBits_small k (m / 2) hs]
      norm_num at h2 ⊢
      omega
    · have h53 : (2 : Nat) ^ 53 = 9007199254740992 := by norm_num
      obtain ⟨_, hq⟩ := ih (m / 2) (by omega) (by omega)
      have e : m / 2 ^ (excessBits k (m / 2) + 1) = m / 2 / 2 ^ excessBits k (m / 2) := by
        rw [Nat.div_div_eq_div_mul, Nat.pow_succ, Nat.mul_comm]
      rw [e]
      exact hq

theorem float64Round_large (m : Nat) (h : 2 ^ 53 ≤ m) : 2 ^ 53 ≤ float64Round m := by
  obtain ⟨he, hq⟩ := excessBits_large m m (le_refl m) h
  have h2 : 2 ^ 1 ≤ 2 ^ excessBits m m := Nat.pow_le_pow_right (by norm_num) he
  have hlow : 2 ^ 53 ≤ m / 2 ^ excessBits m m * 2 ^ excessBits m m := by
    calc 2 ^ 53 = 2 ^ 52 * 2 ^ 1 := by norm_num
      _ ≤ m / 2 ^ excessBits m m * 2 ^ excessBits m m := Nat.mul_le_mul hq h2
  have hup : m / 2 ^ excessBits m m * 2 ^ excessBits m m ≤
      (m / 2 ^ excessBits m m + 1) * 2 ^ excessBits m m :=
    Nat.mul_le_mul_right _ (Nat.le_succ _)
  unfold float64Round
  simp only
  split_ifs <;> omega

/-- The rounding at known values: `2 ^ 53 + 1` is a tie and goes down to the
even significand, `2 ^ 53 + 3` is a tie and goes up, `2 ^ 53 + 2` is
representable, and `2 ^ 63 - 513` goes down to `2 ^ 63 - 1024`. -/
theorem float64Round_samples :
    float64Round 9007199254740993 = 9007199254740992 ∧
    float64Round 9007199254740995 = 9007199254740996 ∧
    float64Round 9007199254740994 = 9007199254740994 ∧
    float64Round 9223372036854775295 = 9223372036854774784 := by
  decide

/-- The computed magnitude at known values: exact on small values, rounded
above `2 ^ 53`, and `-2 ^ 63` where the conversion back overflows (the largest
and the smallest 64-bit integers among others). -/
theorem absInt_samples :
    absInt (-6) = 6 ∧
    absInt (-9007199254740993) = 9007199254740992 ∧
    absInt 9223372036854775295 = 9223372036854774784 ∧
    absInt 9223372036854775296 = -9223372036854775808 ∧
    absInt 9223372036854775807 = -9223372036854775808 ∧
    absInt (-9223372036854775808) = -9223372036854775808 := by
  decide

/-! ## The consumption loop -/

theorem consumeLoop_nonpos (ls : Int) (L : List Int) (rem : Int) (acc : List Int)
    (h : rem ≤ 0) : consumeLoop ls L rem acc = (rem, acc) := by
  cases L with
  | nil => rfl
  | cons x t =>
    have h1 : ¬ rem > 0 := by omega
    simp [consumeLoop, h1]

/-- Outcome of the loop started with a 64-bit remainder: either it ends with
a positive remainder and nothing kept, or the remainder ends non-positive with
either nothing kept or one positive leftover, given the sign of the ledger,
followed by a tail of the ledger. -/
theorem consumeLoop_shape (ls : Int) (L : List Int) : ∀ (rem : Int) (acc : List Int),
    rem < 9223372036854775808 →
    (0 < (consumeLoop ls L rem acc).1 ∧ (consumeLoop ls L rem acc).1 < 9223372036854775808 ∧
        (consumeLoop ls L rem acc).2 = acc) ∨
    ((consumeLoop ls L rem acc).1 ≤ 0 ∧
      ((consumeLoop ls L rem acc).2 = acc ∨
        ∃ v rest, 0 < v ∧ v < 9223372036854775808 ∧ rest <:+ L ∧
          (consumeLoop ls L rem acc).2 = acc ++ wrap64 (wrap64 v * ls) :: rest)) := by
  induction L with
  | nil =>
    intro rem acc hlt
    by_cases h : 0 < rem
    · left
      exact ⟨h, hlt, rfl⟩
    · right
      refine ⟨?_, Or.inl rfl⟩
      show rem ≤ 0
      omega
  | cons x t ih =>
    intro rem acc hlt
    by_cases h : rem > 0
    · by_cases h1 : rem > absInt x
      · have e : consumeLoop ls (x :: t) rem acc =
            consumeLoop ls t (wrap64 (rem - absInt x)) acc := by
          rw [consumeLoop]
          simp only [h, h1, if_true]
        rw [e]
        rcases ih (wrap64 (rem - absInt x)) acc (wrap64_lt _) with a | ⟨b, c⟩
        · exact Or.inl a
        · right
          refine ⟨b, ?_⟩
          rcases c with c | ⟨v, rest, hv, hv2, hs, c⟩
          · exact Or.inl c
          · exact Or.inr ⟨v, rest, hv, hv2, hs.trans (List.suffix_cons x t), c⟩
      · by_cases h2 : rem = absInt x
        · have e : consumeLoop ls (x :: t) rem acc = (0, acc) := by
            subst h2
            rw [consumeLoop]
            simp only [h, h1, if_true, if_false]
            exact consumeLoop_nonpos ls t 0 acc (le_refl 0)
          rw [e]
          right
          exact ⟨le_refl 0, Or.inl rfl⟩
        · have e : consumeLoop ls (x :: t) rem acc =
              (0, (acc ++ [wrap64 (wrap64 (absInt x - rem) * ls)]) ++ t) := by
            rw [consumeLoop]
            simp only [h, h1, h2, if_true, if_false]
            exact consumeLoop_nonpos ls t 0 _ (le_refl 0)
          rw [e]
          right
          have hax := absInt_lt x
          refine ⟨le_refl 0, Or.inr ⟨absInt x - rem, t, by omega, by omega,
            List.suffix_cons x t, ?_⟩⟩
          simp
    · right
      rw [consumeLoop_nonpos ls (x :: t) rem acc (by omega)]
      refine ⟨?_, Or.inl rfl⟩
      show rem ≤ 0
      omega

/-! ## The two branches of `applySigned` -/

theorem applySigned_same (L : List Int) (ls n : Int) (h : sign n = ls) :
    applySigned L ls n = ⟨"same sign, appended " ++ sprintfD n, L ++ [n], ⟨L ++ [n]⟩⟩ := by
  simp [applySigned, h, snapshot]

theorem applySigned_list_store (L : List Int) (ls n : Int) :
    (applySigned L ls n).list = (applySigned L ls n).store.items := by
  unfold applySigned
  simp only [snapshot]
  split_ifs <;> rfl

theorem applySigned_opp_action (L : List Int) (ls n : Int) (hne : sign n ≠ ls) :
    (applySigned L ls n).action = "opposite sign, applied " ++ sprintfD n := by
  unfold applySigned
  simp only [hne, if_false]

/-- The opposite-sign branch on a ledger without zeros: the three possible
shapes of the returned list. -/
theorem applySigned_opp (L : List Int) (ls n : Int) (hne : sign n ≠ ls)
    (hc : ls = 1 ∨ ls = -1) (hn : n ≠ 0) (hL : ∀ x ∈ L, x ≠ 0) :
    (∃ r, 0 < r ∧ (applySigned L ls n).list = [r * sign n]) ∨
    (applySigned L ls n).list = L ∨
    (∃ v rest, 0 < v ∧ rest <:+ L ∧ (applySigned L ls n).list = (v * ls) :: rest) := by
  unfold applySigned
  simp only [hne, if_false, snapshot]
  have hs := consumeLoop_shape ls L (absInt n) [] (absInt_lt n)
  generalize consumeLoop ls L (absInt n) [] = r at hs ⊢
  obtain ⟨rem, items⟩ := r
  simp only [List.nil_append] at hs ⊢
  rcases hs with ⟨h1, h2, h3⟩ | ⟨h1, h3⟩
  · left
    subst h3
    refine ⟨rem, h1, ?_⟩
    simp only [gt_iff_lt, h1, if_true, List.nil_append]
    rw [(wrap64_mul_unit h1 h2 (sgn_cases n hn)).1]
    apply compactNonZero_of_ne
    intro x hx
    simp only [List.mem_singleton] at hx
    subst hx
    rcases sgn_cases n hn with e | e <;> rw [e] <;> omega
  · right
    have hnp : ¬ rem > 0 := by omega
    simp only [hnp, if_false]
    rcases h3 with h3 | ⟨v, rest, hv, hv2, hsuf, h3⟩
    · left
      subst h3
      simp only [List.length_nil, if_true]
      rw [appendNonZero_eq, List.nil_append, ← compactNonZero_eq,
        compactNonZero_of_ne L hL]
      exact compactNonZero_of_ne L hL
    · right
      refine ⟨v, rest, hv, hsuf, ?_⟩
      subst h3
      simp only [List.length_cons, Nat.succ_ne_zero, if_false]
      rw [(wrap64_mul_unit hv hv2 hc).2]
      apply compactNonZero_of_ne
      intro x hx
      rcases List.mem_cons.1 hx with hx | hx
      · subst hx
        rcases hc with e | e <;> rw [e] <;> omega
      · exact hL x (hsuf.subset hx)

theorem applySigned_opp_no_zero (L : List Int) (ls n : Int) (hne : sign n ≠ ls) :
    ∀ x ∈ (applySigned L ls n).list, x ≠ 0 := by
  unfold applySigned
  simp only [hne, if_false, snapshot]
  intro x hx
  exact mem_compactNonZero hx

/-! ## `Apply` by the first element of the ledger -/

theorem apply_zero (s : Store) : s.Apply 0 = ⟨"ignored zero (no-op)", s.items, s⟩ := by
  simp [Store.Apply, snapshot]

theorem apply_nil (n : Int) (hn : n ≠ 0) :
    Store.Apply ⟨[]⟩ n = ⟨"list empty, appended " ++ sprintfD n, [n], ⟨[n]⟩⟩ := by
  simp [Store.Apply, hn, snapshot]

theorem apply_cons (first : Int) (t : List Int) (n : Int) (hn : n ≠ 0) (hf : first ≠ 0) :
    Store.Apply ⟨first :: t⟩ n = applySigned (first :: t) (sign first) n := by
  have h0 : ¬ sign first = 0 := fun h => hf ((sgn_zero_iff first).1 h)
  simp [Store.Apply, hn, h0]

/-- `Apply` on a ledger whose first element is zero, for a non-zero input. -/
theorem apply_zero_head (t : List Int) (n : Int) (hn : n ≠ 0) :
    Store.Apply ⟨0 :: t⟩ n =
      (match compactNonZero (0 :: t) with
        | [] =>
          ⟨"list empty after compaction, appended " ++ sprintfD n,
            compactNonZero (0 :: t) ++ [n], ⟨compactNonZero (0 :: t) ++ [n]⟩⟩
        | first1 :: _ => applySigned (compactNonZero (0 :: t)) (sign first1) n) := by
  have h0 : sign 0 = 0 := rfl
  simp only [Store.Apply, hn, if_false, h0, if_true, snapshot]

theorem reset_items (s : Store) : s.Reset.items = [] := by
  simp [Store.Reset]

theorem apply_list_store (s : Store) (n : Int) :
    (s.Apply n).list = (s.Apply n).store.items := by
  unfold Store.Apply
  split_ifs with h
  · rfl
  · split
    · rfl
    · split_ifs
      · simp only []
        split
        · rfl
        · exact applySigned_list_store _ _ _
      · exact applySigned_list_store _ _ _

/-- One call of `Apply` keeps the invariant. -/
theorem apply_keeps_inv (L : List Int) (n : Int) (h : Inv L) :
    Inv (Store.Apply ⟨L⟩ n).store.items := by
  by_cases hn : n = 0
  · subst hn
    rw [apply_zero]
    exact h
  · cases L with
    | nil =>
      rw [apply_nil n hn]
      exact inv_of_sign (sgn_cases n hn) (fun x hx => by
        simp only [List.mem_singleton] at hx
        rw [hx])
    | cons first t =>
      have hnz := ne_zero_of_inv h
      obtain ⟨hc, hall⟩ := sign_of_inv h
      rw [apply_cons first t n hn (hnz first (List.mem_cons_self _ _))]
      by_cases hs : sign n = sign first
      · rw [applySigned_same _ _ _ hs]
        apply inv_of_sign hc
        intro x hx
        rcases List.mem_append.1 hx with hx | hx
        · exact hall x hx
        · simp only [List.mem_singleton] at hx
          rw [hx, hs]
      · rw [← applySigned_list_store]
        rcases applySigned_opp (first :: t) (sign first) n hs hc hn hnz with
          ⟨r, hr, e⟩ | e | ⟨v, rest, hv, hsuf, e⟩
        · rw [e]
          apply inv_of_sign (sgn_cases n hn)
          intro x hx
          simp only [List.mem_singleton] at hx
          rw [hx]
          exact sgn_mul_unit hr (sgn_cases n hn)
        · rw [e]
          exact h
        · rw [e]
          apply inv_of_sign hc
          intro x hx
          rcases List.mem_cons.1 hx with hx | hx
          · rw [hx]
            exact sgn_mul_unit hv hc
          · exact hall x (hsuf.subset hx)

theorem ruleInitial_injective (a b : Rule) (h : ruleInitial a = ruleInitial b) : a = b := by
  cases a <;> cases b <;> first | rfl | (exact absurd h (by decide))

theorem action_initial (L : List Int) (n : Int) (hL : Inv L) :
    (Store.Apply ⟨L⟩ n).action.data.head? = some (ruleInitial (ruleOf L n)) := by
  by_cases hn : n = 0
  · subst hn
    rw [apply_zero]
    simp [ruleOf, ruleInitial]
  · cases L with
    | nil =>
      rw [apply_nil n hn]
      simp [ruleOf, ruleInitial, hn, String.data_append]
    | cons first t =>
      have hnz := ne_zero_of_inv hL
      obtain ⟨hc, _⟩ := sign_of_inv hL
      rw [apply_cons first t n hn (hnz first (List.mem_cons_self _ _))]
      by_cases hs : sign n = sign first
      · rw [applySigned_same _ _ _ hs]
        simp [ruleOf, ruleInitial, hn, hs, String.data_append]
      · rw [applySigned_opp_action _ _ _ hs]
        simp [ruleOf, ruleInitial, hn, hs, String.data_append]

/-! ## The checked accesses never fail -/

theorem drop_of_lt (items : List Int) (i : Nat) (h : i < items.length) :
    items[i]? = some items[i] ∧ items.drop i = items[i] :: items.drop (i + 1) :=
  ⟨List.getElem?_eq_getElem h, List.drop_eq_getElem_cons h⟩

theorem copyIdx_eq (items : List Int) : ∀ (fuel j : Nat) (acc : List Int),
    items.length - j ≤ fuel → copyIdx items fuel j acc = some (acc ++ items.drop j) := by
  intro fuel
  induction fuel with
  | zero =>
    intro j acc h
    have hj : ¬ j < items.length := by omega
    rw [copyIdx, if_neg hj, List.drop_eq_nil_of_le (by omega), List.append_nil]
  | succ f ih =>
    intro j acc h
    by_cases hj : j < items.length
    · obtain ⟨e1, e2⟩ := drop_of_lt items j hj
      rw [copyIdx, if_pos hj, e1]
      simp only []
      rw [ih (j + 1) _ (by omega), e2, List.append_assoc]
      rfl
    · rw [copyIdx, if_neg hj, List.drop_eq_nil_of_le (by omega), List.append_nil]

theorem appendNonZero_cons (out : List Int) (x : Int) (t : List Int) :
    appendNonZero out (x :: t) = appendNonZero (if x ≠ 0 then out ++ [x] else out) t := by
  simp [appendNonZero]

theorem appendNonZeroIdx_eq (items : List Int) : ∀ (fuel i : Nat) (acc : List Int),
    items.length - i ≤ fuel →
    appendNonZeroIdx items fuel i acc = some (appendNonZero acc (items.drop i)) := by
  intro fuel
  induction fuel with
  | zero =>
    intro i acc h
    have hi : ¬ i < items.length := by omega
    rw [appendNonZeroIdx, if_neg hi, List.drop_eq_nil_of_le (by omega)]
    rfl
  | succ f ih =>
    intro i acc h
    by_cases hi : i < items.length
    · obtain ⟨e1, e2⟩ := drop_of_lt items i hi
      rw [appendNonZeroIdx, if_pos hi, e1, e2, appendNonZero_cons]
      simp only []
      by_cases hx : items[i] ≠ 0
      · rw [if_pos hx, if_pos hx]
        exact ih (i + 1) _ (by omega)
      · rw [if_neg hx, if_neg hx]
        exact ih (i + 1) _ (by omega)
    · rw [appendNonZeroIdx, if_neg hi, List.drop_eq_nil_of_le (by omega)]
      rfl

theorem consumeIdx_eq (items : List Int) (ls : Int) :
    ∀ (fuel i : Nat) (rem : Int) (acc : List Int), items.length - i ≤ fuel →
    consumeIdx items ls fuel i rem acc = some (consumeLoop ls (items.drop i) rem acc) := by
  intro fuel
  induction fuel with
  | zero =>
    intro i rem acc h
    have hi : ¬ (i < items.length ∧ rem > 0) := by omega
    rw [consumeIdx, if_neg hi, List.drop_eq_nil_of_le (by omega)]
    rfl
  | succ f ih =>
    intro i rem acc h
    by_cases hi : i < items.length
    · obtain ⟨e1, e2⟩ := drop_of_lt items i hi
      rw [e2, consumeLoop, consumeIdx]
      by_cases hr : rem > 0
      · have hc : i < items.length ∧ rem > 0 := ⟨hi, hr⟩
        rw [if_pos hc, if_pos hr, e1]
        simp only []
        by_cases h1 : rem > absInt items[i]
        · rw [if_pos h1, if_pos h1]
          exact ih (i + 1) _ acc (by omega)
        · rw [if_neg h1, if_neg h1]
          by_cases h2 : rem = absInt items[i]
          · rw [if_pos h2, if_pos h2]
            exact ih (i + 1) 0 acc (by omega)
          · rw [if_neg h2, if_neg h2, copyIdx_eq items items.length (i + 1) _ (by omega)]
            simp only []
            exact ih (i + 1) 0 _ (by omega)
      · have hc : ¬ (i < items.length ∧ rem > 0) := fun h => hr h.2
        rw [if_neg hc, if_neg hr]
    · have hc : ¬ (i < items.length ∧ rem > 0) := fun h => hi h.1
      rw [consumeIdx, if_neg hc, List.drop_eq_nil_of_le (by omega)]
      rfl

theorem applySignedChecked_eq (items : List Int) (ls n : Int) :
    applySignedChecked items ls n = some (applySigned items ls n) := by
  unfold applySignedChecked applySigned
  by_cases hs : sign n = ls
  · simp only [hs, if_true]
  · simp only [hs, if_false]
    rw [consumeIdx_eq items ls items.length 0 (absInt n) [] (by omega), List.drop_zero]
    simp only []
    by_cases hr : (consumeLoop ls items (absInt n) []).1 > 0
    · simp only [hr, if_true]
    · simp only [hr, if_false]
      by_cases hl : (consumeLoop ls items (absInt n) []).2.length = 0
      · simp only [hl, if_true]
        rw [appendNonZeroIdx_eq items items.length 0 _ (by omega), List.drop_zero]
      · simp only [hl, if_false]

theorem applyChecked_eq (s : Store) (n : Int) : s.ApplyChecked n = some (s.Apply n) := by
  unfold Store.ApplyChecked Store.Apply
  by_cases hn : n = 0
  · simp only [hn, if_true]
  · simp only [hn, if_false]
    cases hitems : s.items with
    | nil => simp
    | cons first t =>
      simp only [List.length_cons, Nat.succ_ne_zero, if_false, List.getElem?_cons_zero]
      by_cases hf : sign first = 0
      · simp only [hf, if_true]
        cases hcomp : compactNonZero (first :: t) with
        | nil => simp
        | cons first1 r =>
          simp only [List.length_cons, Nat.succ_ne_zero, if_false, List.getElem?_cons_zero]
          exact applySignedChecked_eq _ _ _
      · simp only [hf, if_false]
        exact applySignedChecked_eq _ _ _

/-- The code at the ends of the 64-bit range.  On `[1]` the input `-2 ^ 63` has
the computed magnitude `-2 ^ 63`: the loop is skipped and the fallback returns
`[1]`.  On `[2 ^ 63 - 1]` the element has the computed magnitude `-2 ^ 63`:
`rem -= ax` wraps to a negative value, the loop ends and the fallback returns
the ledger. -/
theorem apply_extreme_samples :
    (Store.Apply ⟨[1]⟩ (-9223372036854775808)).list = [1] ∧
    (Store.Apply ⟨[9223372036854775807]⟩ (-5)).list = [9223372036854775807] ∧
    (Store.Apply ⟨[-9223372036854775808]⟩ 5).list = [-9223372036854775808] ∧
    (Store.Apply ⟨[5]⟩ (-9223372036854775295)).list = [-9223372036854774779] := by
  decide

/-! ## Claims -/

/-- C1. Ledger invariant: the empty ledger (that of `NewStore()`) has only
non-zero elements of one sign; for every ledger with that property and every
integer `n` the ledger stored by `Apply(n)` has it again; `Reset` stores the
empty ledger; hence every store reachable from `NewStore()` by `Apply` and
`Reset` calls holds a ledger of non-zero elements of a single sign. -/
theorem ledger_invariant :
    Inv ([] : List Int) ∧ NewStore.items = [] ∧
    (∀ (L : List Int) (n : Int), Inv L → Inv (Store.Apply ⟨L⟩ n).store.items) ∧
    (∀ s : Store, s.Reset.items = []) ∧
    (∀ s : Store, Reachable s → Inv s.items) := by
  have hnil : Inv ([] : List Int) := Or.inl (fun x hx => absurd hx (List.not_mem_nil x))
  refine ⟨hnil, rfl, apply_keeps_inv, reset_items, ?_⟩
  intro s hs
  induction hs with
  | new => exact hnil
  | apply s n _ ih => exact apply_keeps_inv s.items n ih
  | reset s _ _ =>
    rw [reset_items]
    exact hnil

/-- Witness for C1: the step of the invariant at the ledger `[5, 10]` with
input `-6` and at the ledger `[1]` with the smallest 64-bit input, and the
invariant of a reachable store. -/
theorem ledger_invariant_witness :
    Inv [5, 10] ∧ Inv (Store.Apply ⟨[5, 10]⟩ (-6)).store.items ∧
    Inv (Store.Apply ⟨[1]⟩ (-9223372036854775808)).store.items ∧
    Inv ((NewStore.Apply 5).store.Apply (-7)).store.items :=
  ⟨by decide, ledger_invariant.2.2.1 [5, 10] (-6) (by decide),
    ledger_invariant.2.2.1 [1] (-9223372036854775808) (by decide),
    ledger_invariant.2.2.2.2 _ (Reachable.apply _ (-7) (Reachable.apply _ 5 Reachable.new))⟩

/-- C2 (the code at the failing input). Ledger `[5, 10]`, input `-5`: the
magnitude 5 consumes the head exactly, and `Apply` returns and stores
`[5, 10]`, not `[10]`. -/
theorem exact_consume_returns_whole_ledger :
    (Store.Apply ⟨[5, 10]⟩ (-5)).list = [5, 10] ∧
    (Store.Apply ⟨[5, 10]⟩ (-5)).store.items = [5, 10] ∧
    (Store.Apply ⟨[5, 10]⟩ (-5)).list ≠ [10] := by
  decide

/-- C3 (the code at the failing input). Ledger `[9007199254740994]`
(`2 ^ 53 + 2`), `k = 0`, input `-9007199254740993` (`-(2 ^ 53 + 1)`): the
ledger is positive, the input negative, and `0 < |n| < |L[0]|`, yet `Apply`
returns `[2]`, not `[1 * (|L[0]| - |n|)] = [1]`: `float64` rounds the input
magnitude to `2 ^ 53`, so the walk does not consume by `|n|`. -/
theorem consume_partly_wrong_leftover :
    Inv [9007199254740994] ∧
    sign (-9007199254740993) = - sign (([9007199254740994] : List Int).headD 0) ∧
    sumAbs (([9007199254740994] : List Int).take 0) < ((-9007199254740993 : Int).natAbs : Int) ∧
    ((-9007199254740993 : Int).natAbs : Int) < sumAbs (([9007199254740994] : List Int).take 1) ∧
    (Store.Apply ⟨[9007199254740994]⟩ (-9007199254740993)).list = [2] ∧
    (Store.Apply ⟨[9007199254740994]⟩ (-9007199254740993)).list ≠
      (sign (([9007199254740994] : List Int).headD 0) *
          (sumAbs (([9007199254740994] : List Int).take 1) -
            ((-9007199254740993 : Int).natAbs : Int)))
        :: ([9007199254740994] : List Int).drop 1 := by
  decide

/-- C4 (the code at the failing input). Ledger `[1]`, input
`-9007199254740993` (`-(2 ^ 53 + 1)`): the input has the opposite sign and
`|n| > 1`, yet `Apply` returns `[-9007199254740991]`, not
`[(|n| - 1) * sign n] = [-9007199254740992]`: `float64` rounds the input
magnitude to `2 ^ 53`. -/
theorem flip_wrong_remainder :
    Inv [1] ∧ sign (-9007199254740993) = - sign (([1] : List Int).headD 0) ∧
    sumAbs [1] < ((-9007199254740993 : Int).natAbs : Int) ∧
    (Store.Apply ⟨[1]⟩ (-9007199254740993)).list = [-9007199254740991] ∧
    (Store.Apply ⟨[1]⟩ (-9007199254740993)).list ≠
      [(((-9007199254740993 : Int).natAbs : Int) - sumAbs [1]) * sign (-9007199254740993)] := by
  decide

/-- C5. Same-sign or empty append: for every ledger `L` and every non-zero
input `n` such that `L` is empty or `sign n = sign L[0]`, `Apply(n)` returns
and stores exactly `L ++ [n]`. -/
theorem apply_same_sign_appends (L : List Int) (n : Int) (hn : n ≠ 0)
    (h : L = [] ∨ (L ≠ [] ∧ sign n = sign (L.headD 0))) :
    (Store.Apply ⟨L⟩ n).list = L ++ [n] ∧ (Store.Apply ⟨L⟩ n).store.items = L ++ [n] := by
  cases L with
  | nil => rw [apply_nil n hn]; exact ⟨rfl, rfl⟩
  | cons first t =>
    rcases h with h | ⟨_, h⟩
    · exact absurd h (List.cons_ne_nil _ _)
    · simp only [List.headD_cons] at h
      have hf : first ≠ 0 := by
        intro h0
        rw [h0] at h
        exact hn ((sgn_zero_iff n).1 (by rw [h]; rfl))
      rw [apply_cons first t n hn hf, applySigned_same _ _ _ h]
      exact ⟨rfl, rfl⟩

/-- Witness for C5: `[5]` apply 7 gives `[5, 7]`. -/
theorem apply_same_sign_appends_witness :
    (Store.Apply ⟨[5]⟩ 7).list = [5, 7] ∧ (Store.Apply ⟨[5]⟩ 7).store.items = [5, 7] :=
  apply_same_sign_appends [5] 7 (by decide) (Or.inr (by decide))

/-- C6. Zero is a no-op: for every ledger `L`, with no assumption on its
contents, `Apply(0)` returns the action "ignored zero (no-op)" and a list equal
to `L`, and the stored ledger is still `L`. -/
theorem apply_zero_noop (L : List Int) :
    (Store.Apply ⟨L⟩ 0).action = "ignored zero (no-op)" ∧
    (Store.Apply ⟨L⟩ 0).list = L ∧
    (Store.Apply ⟨L⟩ 0).store.items = L := by
  rw [apply_zero]
  exact ⟨rfl, rfl, rfl⟩

/-- C7 (the code at the failing input). Ledger `[5, 10]` of total magnitude
15, input `-5`, no flip: the returned ledger has total magnitude 15, while
`15 - min 15 5 = 10`. -/
theorem exact_consume_keeps_total :
    sumAbs [5, 10] = 15 ∧ ((-5 : Int).natAbs : Int) = 5 ∧
    sumAbs (Store.Apply ⟨[5, 10]⟩ (-5)).list = 15 ∧
    sumAbs (Store.Apply ⟨[5, 10]⟩ (-5)).list ≠ sumAbs [5, 10] - min (sumAbs [5, 10]) 5 := by
  decide

/-- C8 (the code at the failing input). Ledger `[9007199254740993, 1]` (total
magnitude `2 ^ 53 + 2`), input `-9007199254740994` (`-(2 ^ 53 + 2)`): `Apply`
returns the non-empty ledger `[-1]`, of the sign opposite to the ledger,
although `|n|` does not exceed the total magnitude (they are equal): `float64`
rounds the magnitude of the first element to `2 ^ 53`. -/
theorem flip_without_excess :
    Inv [9007199254740993, 1] ∧
    (Store.Apply ⟨[9007199254740993, 1]⟩ (-9007199254740994)).list = [-1] ∧
    (Store.Apply ⟨[9007199254740993, 1]⟩ (-9007199254740994)).list ≠ [] ∧
    (∀ y ∈ (Store.Apply ⟨[9007199254740993, 1]⟩ (-9007199254740994)).list,
      sign y = - sign (([9007199254740993, 1] : List Int).headD 0)) ∧
    ¬ (sumAbs [9007199254740993, 1] < ((-9007199254740994 : Int).natAbs : Int)) := by
  decide

/-- C9. Example sequence: from every prior store state, `Reset` followed by
`Apply(5)`, `Apply(10)`, `Apply(-6)` returns the lists `[5]`, `[5, 10]`, `[9]`,
and a `Snapshot` taken afterwards is `[9]`; the `/example` handler reports
exactly these steps and `final = [9]`. -/
theorem example_sequence (s : Store) :
    (s.Reset.Apply 5).list = [5] ∧
    ((s.Reset.Apply 5).store.Apply 10).list = [5, 10] ∧
    (((s.Reset.Apply 5).store.Apply 10).store.Apply (-6)).list = [9] ∧
    (((s.Reset.Apply 5).store.Apply 10).store.Apply (-6)).store.Snapshot = [9] ∧
    exampleHandler s =
      ([(5, [5], "list empty, appended 5"), (10, [5, 10], "same sign, appended 10"),
        (-6, [9], "opposite sign, applied -6")], [9]) := by
  have h : s.Reset = ⟨[]⟩ := by simp [Store.Reset]
  unfold exampleHandler
  rw [h]
  decide

/-- C10. Action labels per rule: for every ledger `L` whose elements are all
non-zero and of one sign and every non-zero input `n`, `Apply(n)` returns the
action "list empty, appended <n>" when `L` is empty, "same sign, appended <n>"
when `L` is non-empty and `sign n = sign L[0]`, and "opposite sign, applied <n>"
when `L` is non-empty and `sign n ≠ sign L[0]`; `<n>` is the decimal rendering
of `n` (the digits of `|n|`, after a minus sign when `n` is negative). -/
theorem action_labels (L : List Int) (n : Int) (hL : Inv L) (hn : n ≠ 0) :
    (L = [] → (Store.Apply ⟨L⟩ n).action = "list empty, appended " ++ sprintfD n) ∧
    (L ≠ [] → sign n = sign (L.headD 0) →
      (Store.Apply ⟨L⟩ n).action = "same sign, appended " ++ sprintfD n) ∧
    (L ≠ [] → sign n ≠ sign (L.headD 0) →
      (Store.Apply ⟨L⟩ n).action = "opposite sign, applied " ++ sprintfD n) ∧
    sprintfD n = (if n < 0 then "-" ++ Nat.repr n.natAbs else Nat.repr n.natAbs) := by
  refine ⟨?_, ?_, ?_, ?_⟩
  · intro h
    subst h
    rw [apply_nil n hn]
  · intro hne hs
    cases L with
    | nil => exact absurd rfl hne
    | cons first t =>
      simp only [List.headD_cons] at hs
      rw [apply_cons first t n hn (ne_zero_of_inv hL first (List.mem_cons_self _ _)),
        applySigned_same _ _ _ hs]
  · intro hne hs
    cases L with
    | nil => exact absurd rfl hne
    | cons first t =>
      simp only [List.headD_cons] at hs
      have hnz := ne_zero_of_inv hL
      obtain ⟨hc, _⟩ := sign_of_inv hL
      rw [apply_cons first t n hn (hnz first (List.mem_cons_self _ _))]
      exact applySigned_opp_action _ _ _ hs
  · cases n with
    | ofNat m =>
      have h : ¬ (Int.ofNat m < 0) := by simp
      rw [if_neg h]
      rfl
    | negSucc m =>
      have h : Int.negSucc m < 0 := Int.negSucc_lt_zero m
      rw [if_pos h]
      rfl

/-- Witness for C10: on `[5, 10]` the input `-6` is labelled
"opposite sign, applied -6". -/
theorem action_labels_witness :
    (Store.Apply ⟨[5, 10]⟩ (-6)).action = "opposite sign, applied " ++ sprintfD (-6) ∧
    sprintfD (-6) = "-6" :=
  ⟨(action_labels [5, 10] (-6) (by decide) (by decide)).2.2.1 (by decide) (by decide),
    by decide⟩

/-- C11. Reset clears the ledger: for every store state, after `Reset` the
stored ledger is empty and `Snapshot` returns `[]`, and a following `Apply(n)`
with `n ≠ 0` returns and stores `[n]`, exactly as on a freshly created store. -/
theorem reset_clears_ledger (s : Store) (n : Int) (hn : n ≠ 0) :
    s.Reset.items = [] ∧ s.Reset.Snapshot = [] ∧
    (s.Reset.Apply n).list = [n] ∧ (s.Reset.Apply n).store.items = [n] ∧
    s.Reset.Apply n = NewStore.Apply n := by
  have h : s.Reset = ⟨[]⟩ := by simp [Store.Reset]
  rw [h]
  refine ⟨rfl, rfl, ?_, ?_, rfl⟩
  · rw [apply_nil n hn]
  · rw [apply_nil n hn]

/-- Witness for C11: reset of the store holding `[4, 3]`, then `Apply(-7)`. -/
theorem reset_clears_ledger_witness :
    (Store.Reset ⟨[4, 3]⟩).items = [] ∧ (Store.Reset ⟨[4, 3]⟩).Snapshot = [] ∧
    ((Store.Reset ⟨[4, 3]⟩).Apply (-7)).list = [-7] ∧
    ((Store.Reset ⟨[4, 3]⟩).Apply (-7)).store.items = [-7] ∧
    (Store.Reset ⟨[4, 3]⟩).Apply (-7) = NewStore.Apply (-7) :=
  reset_clears_ledger ⟨[4, 3]⟩ (-7) (by decide)

/-- C12. Read consistency: for every store state and every integer `n`, the
list returned by `Apply(n)` equals the ledger stored after the call, so that
`Snapshot` called right afterwards returns the same list; and for every store
state `Snapshot` returns a list equal to the stored ledger and leaves the store
as it was. -/
theorem read_consistency (s : Store) (n : Int) :
    (s.Apply n).list = (s.Apply n).store.items ∧
    (s.Apply n).store.Snapshot = (s.Apply n).list ∧
    s.Snapshot = s.items ∧ s.SnapshotCall = (s.items, s) := by
  refine ⟨apply_list_store s n, ?_, rfl, rfl⟩
  rw [apply_list_store s n]
  rfl

/-- C13 (counterexample). Input `-10` on `[4, 3]` takes the sign-flip branch
(`10 > 7`, result `[-3]`), on `[5, 10]` it consumes without flipping
(`10 ≤ 15`, result `[5]`), and the two returned action labels are the same,
"opposite sign, applied -10". -/
theorem flip_label_counterexample :
    Inv [4, 3] ∧ Inv [5, 10] ∧
    sumAbs [4, 3] < ((-10 : Int).natAbs : Int) ∧ ((-10 : Int).natAbs : Int) ≤ sumAbs [5, 10] ∧
    (Store.Apply ⟨[4, 3]⟩ (-10)).list = [-3] ∧ (Store.Apply ⟨[5, 10]⟩ (-10)).list = [5] ∧
    (Store.Apply ⟨[4, 3]⟩ (-10)).action = "opposite sign, applied -10" ∧
    (Store.Apply ⟨[4, 3]⟩ (-10)).action = (Store.Apply ⟨[5, 10]⟩ (-10)).action := by
  decide

/-- C13 (amended). The action label identifies which rule fired among four
kinds, no-op, appended-to-empty, appended-same-sign and opposite-sign: two
calls on ledgers of non-zero elements of one sign that return the same label
fired the same of these four rules.  The sign flip has no label of its own:
for every input `n` and non-empty ledgers `L1`, `L2` of the sign opposite to
`n`, whether `Apply(n)` flips the sign or consumes without flipping, both calls
return the label "opposite sign, applied <n>". -/
theorem action_label_kinds :
    (∀ (L1 L2 : List Int) (n1 n2 : Int), Inv L1 → Inv L2 →
      (Store.Apply ⟨L1⟩ n1).action = (Store.Apply ⟨L2⟩ n2).action →
      ruleOf L1 n1 = ruleOf L2 n2) ∧
    (∀ (L1 L2 : List Int) (n : Int), Inv L1 → Inv L2 → L1 ≠ [] → L2 ≠ [] →
      sign n = - sign (L1.headD 0) → sign n = - sign (L2.headD 0) →
      (Store.Apply ⟨L1⟩ n).action = "opposite sign, applied " ++ sprintfD n ∧
      (Store.Apply ⟨L2⟩ n).action = "opposite sign, applied " ++ sprintfD n) := by
  constructor
  · intro L1 L2 n1 n2 h1 h2 he
    have e1 := action_initial L1 n1 h1
    have e2 := action_initial L2 n2 h2
    rw [he, e2] at e1
    exact (ruleInitial_injective _ _ (Option.some.inj e1)).symm
  · intro L1 L2 n h1 h2 hne1 hne2 ho1 ho2
    have one : ∀ L : List Int, Inv L → L ≠ [] → sign n = - sign (L.headD 0) →
        (Store.Apply ⟨L⟩ n).action = "opposite sign, applied " ++ sprintfD n := by
      intro L hL hne ho
      cases L with
      | nil => exact absurd rfl hne
      | cons first t =>
        simp only [List.headD_cons] at ho
        have hnz := ne_zero_of_inv hL
        obtain ⟨hc, _⟩ := sign_of_inv hL
        obtain ⟨hn, hf, hs⟩ := opposite_sign_facts hc ho
        rw [apply_cons first t n hn hf]
        exact applySigned_opp_action _ _ _ hs
    exact ⟨one L1 h1 hne1 ho1, one L2 h2 hne2 ho2⟩

/-- Witness for C13: the flip on `[4, 3]` and the consumption on `[5, 10]` by
`-10` carry the opposite-sign label, and a no-op is told apart from them. -/
theorem action_label_kinds_witness :
    ((Store.Apply ⟨[4, 3]⟩ (-10)).action = "opposite sign, applied " ++ sprintfD (-10) ∧
      (Store.Apply ⟨[5, 10]⟩ (-10)).action = "opposite sign, applied " ++ sprintfD (-10)) ∧
    ruleOf [4, 3] (-10) = ruleOf [5, 10] (-10) :=
  ⟨action_label_kinds.2 [4, 3] [5, 10] (-10) (by decide) (by decide) (by decide) (by decide)
      (by decide) (by decide),
    action_label_kinds.1 [4, 3] [5, 10] (-10) (-10) (by decide) (by decide) (by decide)⟩

/-- C14. Totality: for every ledger (any list of integers, the invariant not
assumed) and every integer input, `Apply` returns an (action, ledger) pair:
run with checked accesses `s.items[0]`, `s.items[i]`, `s.items[j]` and loops
bounded by the length of the ledger, it never meets an index out of range nor
any other failing branch, and it returns exactly the value of the total
function `Apply`. -/
theorem apply_is_total (s : Store) (n : Int) :
    s.ApplyChecked n = some (s.Apply n) ∧ (s.ApplyChecked n).isSome = true ∧
    (s.Apply n).store.items = (s.Apply n).list := by
  refine ⟨applyChecked_eq s n, ?_, (apply_list_store s n).symm⟩
  rw [applyChecked_eq s n]
  rfl

/-- C16. Degenerate guard: for every non-empty ledger `L` whose first element
is 0 and every non-zero input `n`, the ledger returned (and stored) by
`Apply(n)` on `L` equals the one returned by `Apply(n)` on `L` with all zero
elements removed; when every element of `L` is 0 the result is `[n]`. -/
theorem degenerate_guard (L : List Int) (n : Int) (hn : n ≠ 0) (h0 : L.head? = some 0) :
    (Store.Apply ⟨L⟩ n).list = (Store.Apply ⟨removeZeros L⟩ n).list ∧
    (Store.Apply ⟨L⟩ n).store.items = (Store.Apply ⟨removeZeros L⟩ n).store.items ∧
    ((∀ x ∈ L, x = 0) → (Store.Apply ⟨L⟩ n).list = [n]) := by
  cases L with
  | nil => simp at h0
  | cons first t =>
    simp only [List.head?_cons, Option.some.injEq] at h0
    subst h0
    have hc : compactNonZero (0 :: t) = removeZeros (0 :: t) := compactNonZero_eq _
    have key : (Store.Apply ⟨0 :: t⟩ n).list = (Store.Apply ⟨removeZeros (0 :: t)⟩ n).list ∧
        ((∀ x ∈ (0 :: t : List Int), x = 0) → (Store.Apply ⟨0 :: t⟩ n).list = [n]) := by
      rw [apply_zero_head t n hn, hc]
      cases hr : removeZeros (0 :: t) with
      | nil =>
        rw [apply_nil n hn]
        exact ⟨rfl, fun _ => rfl⟩
      | cons first1 r =>
        have hmem : first1 ∈ removeZeros (0 :: t) := by rw [hr]; exact List.mem_cons_self _ _
        have hf : first1 ≠ 0 := by
          have := (List.mem_filter.1 hmem).2
          simpa using this
        simp only []
        rw [apply_cons first1 r n hn hf]
        refine ⟨rfl, ?_⟩
        intro hall
        exact absurd (hall first1 (List.mem_of_mem_filter hmem)) hf
    refine ⟨key.1, ?_, key.2⟩
    rw [← apply_list_store, ← apply_list_store]
    exact key.1

/-- Witness for C16: `[0, 5, 0, 10]` apply `-6` gives `[9]`, as `[5, 10]` does. -/
theorem degenerate_guard_witness :
    (Store.Apply ⟨[0, 5, 0, 10]⟩ (-6)).list = (Store.Apply ⟨removeZeros [0, 5, 0, 10]⟩ (-6)).list ∧
    (Store.Apply ⟨[0, 5, 0, 10]⟩ (-6)).store.items =
      (Store.Apply ⟨removeZeros [0, 5, 0, 10]⟩ (-6)).store.items ∧
    ((∀ x ∈ ([0, 5, 0, 10] : List Int), x = 0) → (Store.Apply ⟨[0, 5, 0, 10]⟩ (-6)).list = [-6]) :=
  degenerate_guard [0, 5, 0, 10] (-6) (by decide) (by decide)

/-- C17. Post-processing compaction: for every non-empty ledger `L` of
arbitrary integers (zeros and mixed signs allowed) and every non-zero input `n`
whose sign differs from the sign derived for the ledger, the ledger returned
(and stored) by `Apply(n)` contains no zero element. -/
theorem opposite_path_has_no_zero (L : List Int) (n : Int) (hne : L ≠ []) (hn : n ≠ 0)
    (hs : sign n ≠ derivedSign L) :
    (∀ x ∈ (Store.Apply ⟨L⟩ n).list, x ≠ 0) ∧
    (∀ x ∈ (Store.Apply ⟨L⟩ n).store.items, x ≠ 0) := by
  have key : ∀ x ∈ (Store.Apply ⟨L⟩ n).list, x ≠ 0 := by
    cases L with
    | nil => exact absurd rfl hne
    | cons first t =>
      by_cases hf : first = 0
      · subst hf
        have h0 : sign 0 = 0 := rfl
        simp only [derivedSign, h0, if_true] at hs
        rw [apply_zero_head t n hn]
        cases hr : compactNonZero (0 :: t) with
        | nil =>
          intro x hx
          simp only [List.nil_append, List.mem_singleton] at hx
          rw [hx]
          exact hn
        | cons first1 r =>
          rw [hr] at hs
          exact applySigned_opp_no_zero _ _ _ hs
      · have hsf : ¬ sign first = 0 := fun h => hf ((sgn_zero_iff first).1 h)
        simp only [derivedSign, hsf, if_false] at hs
        rw [apply_cons first t n hn hf]
        exact applySigned_opp_no_zero _ _ _ hs
  refine ⟨key, ?_⟩
  rw [← apply_list_store]
  exact key

/-- Witness for C17: `[5, 0, -3, 0, 7]` apply `-6` gives `[2, 7]`, without a
zero; the input is negative and the derived sign is positive. -/
theorem opposite_path_has_no_zero_witness :
    (∀ x ∈ (Store.Apply ⟨[5, 0, -3, 0, 7]⟩ (-6)).list, x ≠ 0) ∧
    (∀ x ∈ (Store.Apply ⟨[5, 0, -3, 0, 7]⟩ (-6)).store.items, x ≠ 0) :=
  opposite_path_has_no_zero [5, 0, -3, 0, 7] (-6) (by decide) (by decide) (by decide)

/-- C18 (the code at the failing input). Ledger `[1, 9007199254740992]`,
`k = 2`, input `-9007199254740993`, whose magnitude `2 ^ 53 + 1` is the total
of the ledger: the walk does not end with an empty `newItems` and `Apply`
returns `[1]`, not the ledger itself: `float64` rounds the input magnitude to
`2 ^ 53`, so the walk consumes by `2 ^ 53` and not by `|n|`. -/
theorem exact_total_not_restored :
    Inv [1, 9007199254740992] ∧
    sign (-9007199254740993) = - sign (([1, 9007199254740992] : List Int).headD 0) ∧
    ((-9007199254740993 : Int).natAbs : Int) = sumAbs (([1, 9007199254740992] : List Int).take 2) ∧
    consumeLoop 1 [1, 9007199254740992] (absInt (-9007199254740993)) [] = (0, [1]) ∧
    (Store.Apply ⟨[1, 9007199254740992]⟩ (-9007199254740993)).list = [1] ∧
    (Store.Apply ⟨[1, 9007199254740992]⟩ (-9007199254740993)).list ≠ [1, 9007199254740992] := by
  decide

/-- C19 (the code at the failing input). The 64-bit integer
`9007199254740993` (`2 ^ 53 + 1`) is not the minimum value, and the magnitude
the engine computes for it is `9007199254740992`, not `|v|`. -/
theorem magnitude_rounded :
    -(2 : Int) ^ 63 < 9007199254740993 ∧ (9007199254740993 : Int) < 2 ^ 63 ∧
    absInt 9007199254740993 = 9007199254740992 ∧
    absInt 9007199254740993 ≠ ((9007199254740993 : Int).natAbs : Int) := by
  decide

end ListApi
